import Mathlib

/-!
Verification of the silencio2 redaction engine.

Texts are modelled as lists of characters.  Python regular expressions that
the source relies on (the stale tag-masking pattern in mdseg.py, the
variant-tag pattern in unredact.py, and the code-fence pattern) are embedded
as deterministic scanners that realise exactly the matching semantics of
those concrete patterns.  Python ints are modelled as Int, Python str.strip
as pyStrip, and Python list slicing as pySlice.
-/

namespace Silencio

/-- Whitespace characters recognised by Python str.strip and the regex
class backslash-s, restricted to the ASCII range used by this code base. -/
def isPySpace (c : Char) : Bool :=
  c = ' ' || c = '\t' || c = '\n' || c = '\r' || c = Char.ofNat 11 || c = Char.ofNat 12

/-- Embedding of Python str.strip: drop whitespace from both ends. -/
def pyStrip (s : List Char) : List Char :=
  ((s.dropWhile isPySpace).reverse.dropWhile isPySpace).reverse

/-- Decimal digit test, as in the regex class backslash-d (ASCII). -/
def isDig (c : Char) : Bool := '0' ≤ c && c ≤ '9'

/-- The character for a single decimal digit. -/
def digitChar (d : Nat) : Char := Char.ofNat (48 + d)

/-- Parse a digit string to a natural number, as Python int() does on the
digit-only strings produced by the tag regexes. -/
def digitsToNat (ds : List Char) : Nat :=
  ds.foldl (fun a c => 10 * a + (c.toNat - 48)) 0

/-- Decimal digits of a natural number, with explicit fuel. -/
def natDigitsAux : Nat → Nat → List Char
  | 0, _ => []
  | fuel + 1, n =>
    if n < 10 then [digitChar n]
    else natDigitsAux fuel (n / 10) ++ [digitChar (n % 10)]

/-- Decimal digits of a natural number, as Python str() renders it. -/
def natDigits (n : Nat) : List Char := natDigitsAux (n + 1) n

/-- Decimal rendering of an integer, as Python str() renders it. -/
def intStr (i : Int) : List Char :=
  if i < 0 then '-' :: natDigits i.natAbs else natDigits i.toNat

/-- Embedding of Python list slicing text[a:b] for integer bounds:
negative indices count from the end, and bounds are clamped. -/
def pySlice (cs : List Char) (a b : Int) : List Char :=
  let n : Int := cs.length
  let norm : Int → Nat := fun x => if x < 0 then (n + x).toNat else x.toNat
  (cs.take (norm b)).drop (norm a)

/-- Consume an exact literal prefix, returning the remainder. -/
def eatLit (lit cs : List Char) : Option (List Char) :=
  if lit.isPrefixOf cs then some (cs.drop lit.length) else none

/-- Consume a maximal nonempty run of decimal digits (regex backslash-d+
followed by a non-digit or end), returning its numeric value and the
remainder. -/
def eatDigits1 (cs : List Char) : Option (Nat × List Char) :=
  if (cs.takeWhile isDig).isEmpty then none
  else some (digitsToNat (cs.takeWhile isDig), cs.drop (cs.takeWhile isDig).length)

/-- Scan forward to the first occurrence of the terminator character,
requiring at least one character before it; consume the terminator.  This
realises the regex fragments of the shape backslash-s star, one-or-more
characters excluding the terminator, then the terminator, which on any
input admit exactly this reading. -/
def scanToChar (t : Char) (cs : List Char) : Option (List Char × List Char) :=
  if (cs.takeWhile (fun c => c ≠ t)).isEmpty then none
  else
    match cs.drop (cs.takeWhile (fun c => c ≠ t)).length with
    | [] => none
    | _ :: r => some (cs.takeWhile (fun c => c ≠ t), r)

theorem eatLit_eq (lit cs r : List Char) (h : eatLit lit cs = some r) :
    cs = lit ++ r := by
  unfold eatLit at h
  split at h
  · next hp =>
    rw [List.isPrefixOf_iff_prefix] at hp
    obtain ⟨t, ht⟩ := hp
    cases h
    subst ht
    rw [List.drop_left]
  · exact absurd h (by simp)

theorem eatLit_length_le (lit cs r : List Char) (h : eatLit lit cs = some r) :
    r.length ≤ cs.length := by
  have := eatLit_eq lit cs r h
  subst this
  simp

theorem eatLit_length_lt (lit cs r : List Char) (hne : lit ≠ [])
    (h : eatLit lit cs = some r) : r.length < cs.length := by
  have := eatLit_eq lit cs r h
  subst this
  have : 0 < lit.length := List.length_pos.mpr hne
  simp only [List.length_append]
  omega

theorem eatDigits1_length_le (cs : List Char) (v : Nat) (r : List Char)
    (h : eatDigits1 cs = some (v, r)) : r.length ≤ cs.length := by
  unfold eatDigits1 at h
  split at h
  · exact absurd h (by simp)
  · cases h
    simp

theorem scanToChar_length_lt (t : Char) (cs : List Char) (pre r : List Char)
    (h : scanToChar t cs = some (pre, r)) : r.length < cs.length := by
  unfold scanToChar at h
  split at h
  · exact absurd h (by simp)
  · next hne =>
    split at h
    · exact absurd h (by simp)
    · next c r' heq =>
      injection h with h
      injection h with h1 h2
      have hple : (cs.takeWhile (fun c => c ≠ t)).length ≤ cs.length :=
        (List.takeWhile_prefix _).length_le
      have hd : (cs.drop (cs.takeWhile (fun c => c ≠ t)).length).length
          = cs.length - (cs.takeWhile (fun c => c ≠ t)).length := by
        simp
      rw [heq] at hd
      simp only [List.length_cons] at hd
      have hpos : 0 < (cs.takeWhile (fun c => c ≠ t)).length := by
        cases hp : cs.takeWhile (fun c => c ≠ t) with
        | nil => rw [hp] at hne; simp at hne
        | cons a l => simp
      subst h2
      omega

/-! Inventory data model, from models.py. -/

/-- An alias surface of a redaction item (models.py, class Alias). -/
structure Alias where
  id : Int
  surface : List Char
deriving DecidableEq

/-- A redaction item (models.py, class RedactionItem). -/
structure RedactionItem where
  id : Int
  code : List Char
  desc : List Char
  surface : List Char
  aliases : List Alias
  scope : List Char
deriving DecidableEq

/-- The redaction inventory (models.py, class Inventory).  The private
id-to-item dictionary is derived state: it maps each id to the last item
carrying it, which the embedding recomputes on demand. -/
structure Inventory where
  items : List RedactionItem
deriving DecidableEq

/-- Inventory.find: dictionary lookup by item id; on duplicate ids the
dictionary holds the item registered last. -/
def Inventory.find (inv : Inventory) (item_id : Int) : Option RedactionItem :=
  inv.items.reverse.find? (fun it => it.id == item_id)

/-- Inventory.get_alias_surface: pure lookup, None on unknown item or
alias id. -/
def Inventory.get_alias_surface (inv : Inventory) (item_id alias_id : Int) :
    Option (List Char) :=
  match inv.find item_id with
  | none => none
  | some it =>
    match it.aliases.find? (fun al => al.id == alias_id) with
    | none => none
    | some al => some al.surface

/-! Scanners for the two tag regular expressions.  TAG_WITH_VARIANT from
unredact.py and TAG_BLOCK from mdseg.py are embedded as deterministic
matchers at a position; on these concrete patterns the backtracking search
of the Python engine admits exactly the readings implemented here. -/

/-- The parsed variant marker of a tag: c, or a followed by an alias id. -/
inductive VarT where
  | c : VarT
  | a : Nat → VarT
deriving DecidableEq

/-- Parse the variant alternation c or a with digits, from the
TAG_WITH_VARIANT pattern of unredact.py. -/
def parseVar (cs : List Char) : Option (VarT × List Char) :=
  match cs with
  | [] => none
  | ch :: r =>
    if ch = 'c' then some (VarT.c, r)
    else if ch = 'a' then
      (eatDigits1 r).bind fun kr => some (VarT.a kr.1, kr.2)
    else none

/-- Match the TAG_WITH_VARIANT regex of unredact.py at the head of the
input: a bracketed REDACTED marker with item id and variant, a code part
up to the first comma, and a description part up to the first closing
bracket.  Returns the item id, the variant, the matched text and the rest. -/
def tagVariantMatchAt (cs : List Char) : Option (Nat × VarT × List Char × List Char) :=
  (eatLit ("[REDACTED(#".data) cs).bind fun r1 =>
    (eatDigits1 r1).bind fun dr =>
      (eatLit ("|var=".data) dr.2).bind fun r3 =>
        (parseVar r3).bind fun vr =>
          (eatLit ("):".data) vr.2).bind fun r5 =>
            (scanToChar ',' r5).bind fun cr =>
              (scanToChar ']' cr.2).bind fun dr2 =>
                some (dr.1, vr.1, cs.take (cs.length - dr2.2.length), dr2.2)

/-- Match the stale TAG_BLOCK regex of mdseg.py at the head of the input:
a bracketed REDACTED marker with an item id but no variant part, a
parenthesised code group and a description part.  Returns the matched
length and the rest. -/
def tagBlockMatchAt (cs : List Char) : Option (Nat × List Char) :=
  match eatLit ("[REDACTED(#".data) cs with
  | none => none
  | some r1 =>
    match eatDigits1 r1 with
    | none => none
    | some (_, r2) =>
      match eatLit ("):".data) r2 with
      | none => none
      | some r3 =>
        match eatLit ("(".data) (r3.dropWhile isPySpace) with
        | none => none
        | some r4 =>
          match scanToChar ')' r4 with
          | none => none
          | some (_, r5) =>
            match eatLit (",".data) r5 with
            | none => none
            | some r6 =>
              match scanToChar ']' r6 with
              | none => none
              | some (_, r7) => some (cs.length - r7.length, r7)

theorem parseVar_length_le (cs : List Char) (v : VarT) (r : List Char)
    (h : parseVar cs = some (v, r)) : r.length ≤ cs.length := by
  cases cs with
  | nil => simp [parseVar] at h
  | cons ch r' =>
    simp only [parseVar] at h
    split at h
    · injection h with h
      injection h with h1 h2
      subst h2
      simp
    · split at h
      · rw [Option.bind_eq_some] at h
        obtain ⟨kr, hd, h⟩ := h
        injection h with h
        injection h with h1 h2
        subst h2
        have := eatDigits1_length_le r' kr.1 kr.2 hd
        simp only [List.length_cons]
        omega
      · simp at h

theorem tagVariantMatchAt_rest_lt (cs : List Char) (i : Nat) (v : VarT)
    (m r : List Char) (h : tagVariantMatchAt cs = some (i, v, m, r)) :
    r.length < cs.length := by
  unfold tagVariantMatchAt at h
  rw [Option.bind_eq_some] at h
  obtain ⟨r1, h1, h⟩ := h
  rw [Option.bind_eq_some] at h
  obtain ⟨dr, h2, h⟩ := h
  rw [Option.bind_eq_some] at h
  obtain ⟨r3, h3, h⟩ := h
  rw [Option.bind_eq_some] at h
  obtain ⟨vr, h4, h⟩ := h
  rw [Option.bind_eq_some] at h
  obtain ⟨r5, h5, h⟩ := h
  rw [Option.bind_eq_some] at h
  obtain ⟨cr, h6, h⟩ := h
  rw [Option.bind_eq_some] at h
  obtain ⟨dr2, h7, h⟩ := h
  injection h with h
  simp only [Prod.ext_iff] at h
  obtain ⟨hi, hv, hm, hr⟩ := h
  subst hr
  have e1 : r1.length < cs.length := eatLit_length_lt _ cs r1 (by decide) h1
  have e2 : dr.2.length ≤ r1.length := eatDigits1_length_le r1 dr.1 dr.2 h2
  have e3 : r3.length ≤ dr.2.length := eatLit_length_le _ dr.2 r3 h3
  have e4 : vr.2.length ≤ r3.length := parseVar_length_le r3 vr.1 vr.2 h4
  have e5 : r5.length ≤ vr.2.length := eatLit_length_le _ vr.2 r5 h5
  have e6 : cr.2.length < r5.length := scanToChar_length_lt ',' r5 cr.1 cr.2 h6
  have e7 : dr2.2.length < cr.2.length := scanToChar_length_lt ']' cr.2 dr2.1 dr2.2 h7
  omega

theorem tagBlockMatchAt_rest_lt (cs : List Char) (n : Nat) (r : List Char)
    (h : tagBlockMatchAt cs = some (n, r)) : r.length < cs.length := by
  unfold tagBlockMatchAt at h
  split at h
  · simp at h
  · next r1 h1 =>
    split at h
    · simp at h
    · next idv r2 h2 =>
      split at h
      · simp at h
      · next r3 h3 =>
        split at h
        · simp at h
        · next r4 h4 =>
          split at h
          · simp at h
          · next p5 r5 h5 =>
            split at h
            · simp at h
            · next r6 h6 =>
              split at h
              · simp at h
              · next p7 r7 h7 =>
                injection h with h
                injection h with ha hb
                subst hb
                have e1 : r1.length < cs.length :=
                  eatLit_length_lt _ cs r1 (by decide) h1
                have e2 : r2.length ≤ r1.length := eatDigits1_length_le r1 idv r2 h2
                have e3 : r3.length ≤ r2.length := eatLit_length_le _ r2 r3 h3
                have e35 : (r3.dropWhile isPySpace).length ≤ r3.length :=
                  (List.dropWhile_suffix _).length_le
                have e4 : r4.length ≤ (r3.dropWhile isPySpace).length :=
                  eatLit_length_le _ _ r4 h4
                have e5 : r5.length < r4.length := scanToChar_length_lt ')' r4 p5 r5 h5
                have e6 : r6.length ≤ r5.length := eatLit_length_le _ r5 r6 h6
                have e7 : r7.length < r6.length := scanToChar_length_lt ']' r6 p7 r7 h7
                omega

/-- The filler glyph used by mask_existing_tags, the black square. -/
def fillerGlyph : Char := Char.ofNat 9632

/-- Embedding of mdseg.mask_existing_tags: scan left to right replacing
every TAG_BLOCK match with the filler glyph, character for character, as
re.sub does. -/
def maskGo : List Char → List Char
  | [] => []
  | c :: cs =>
    match h : tagBlockMatchAt (c :: cs) with
    | some (n, rest) => List.replicate n fillerGlyph ++ maskGo rest
    | none => c :: maskGo cs
termination_by l => l.length
decreasing_by
  · exact tagBlockMatchAt_rest_lt _ _ _ h
  · simp

/-- The scan of mask_existing_tags with explicit fuel, one unit per
consumed character, so that the kernel can evaluate it; maskGoF_eq_maskGo
shows it agrees with the direct recursion whenever the fuel covers the
input length. -/
def maskGoF : Nat → List Char → List Char
  | 0, _ => []
  | _ + 1, [] => []
  | fuel + 1, c :: cs =>
    match tagBlockMatchAt (c :: cs) with
    | some (n, rest) => List.replicate n fillerGlyph ++ maskGoF fuel rest
    | none => c :: maskGoF fuel cs

/-- mdseg.mask_existing_tags. -/
def mask_existing_tags (text : List Char) : List Char :=
  maskGoF (text.length + 1) text

/-- The replacement computed by the repl closure in unredact.unredact_text
for a parsed tag: unknown item keeps the tag verbatim, variant c restores
the canonical surface, variant a falls back to the canonical surface when
the alias id is absent. -/
def replFor (inv : Inventory) (idv : Nat) (v : VarT) (matched : List Char) :
    List Char :=
  match inv.find (Int.ofNat idv) with
  | none => matched
  | some it =>
    match v with
    | VarT.c => it.surface
    | VarT.a k =>
      match inv.get_alias_surface (Int.ofNat idv) (Int.ofNat k) with
      | none => it.surface
      | some s => s

/-- Left-to-right re.sub scan for unredact_text. -/
def unredactGo (inv : Inventory) : List Char → List Char
  | [] => []
  | c :: cs =>
    match h : tagVariantMatchAt (c :: cs) with
    | some (idv, v, matched, rest) => replFor inv idv v matched ++ unredactGo inv rest
    | none => c :: unredactGo inv cs
termination_by l => l.length
decreasing_by
  · exact tagVariantMatchAt_rest_lt _ _ _ _ _ h
  · simp

/-- The scan of unredact_text with explicit fuel, one unit per consumed
character; unredactGoF_eq_unredactGo shows it agrees with the direct
recursion whenever the fuel covers the input length. -/
def unredactGoF (inv : Inventory) : Nat → List Char → List Char
  | 0, _ => []
  | _ + 1, [] => []
  | fuel + 1, c :: cs =>
    match tagVariantMatchAt (c :: cs) with
    | some (idv, v, matched, rest) =>
      replFor inv idv v matched ++ unredactGoF inv fuel rest
    | none => c :: unredactGoF inv fuel cs

/-- unredact.unredact_text. -/
def unredact_text (text : List Char) (inv : Inventory) : List Char :=
  unredactGoF inv (text.length + 1) text

theorem maskGo_nil : maskGo [] = [] := by
  rw [maskGo]

theorem maskGo_cons_some (c : Char) (cs : List Char) (n : Nat) (rest : List Char)
    (hm : tagBlockMatchAt (c :: cs) = some (n, rest)) :
    maskGo (c :: cs) = List.replicate n fillerGlyph ++ maskGo rest := by
  rw [maskGo]
  split
  · next n' rest' heq =>
    rw [hm] at heq
    injection heq with heq
    injection heq with h1 h2
    subst h1
    subst h2
    rfl
  · next heq =>
    rw [hm] at heq
    cases heq

theorem maskGo_cons_none (c : Char) (cs : List Char)
    (hm : tagBlockMatchAt (c :: cs) = none) :
    maskGo (c :: cs) = c :: maskGo cs := by
  rw [maskGo]
  split
  · next n' rest' heq =>
    rw [hm] at heq
    cases heq
  · rfl

theorem maskGoF_eq_maskGo (fuel : Nat) (cs : List Char) (h : cs.length ≤ fuel) :
    maskGoF fuel cs = maskGo cs := by
  induction fuel generalizing cs with
  | zero =>
    have hnil : cs = [] := by
      cases cs with
      | nil => rfl
      | cons a l => simp at h
    subst hnil
    rw [maskGo_nil]
    rfl
  | succ fuel ih =>
    cases cs with
    | nil => rw [maskGo_nil]; rfl
    | cons c cs =>
      cases hm : tagBlockMatchAt (c :: cs) with
      | some nr =>
        obtain ⟨n, rest⟩ := nr
        have hlt : rest.length < (c :: cs).length := tagBlockMatchAt_rest_lt _ _ _ hm
        rw [maskGo_cons_some c cs n rest hm]
        show (match tagBlockMatchAt (c :: cs) with
          | some (n, rest) => List.replicate n fillerGlyph ++ maskGoF fuel rest
          | none => c :: maskGoF fuel cs) = _
        rw [hm]
        show List.replicate n fillerGlyph ++ maskGoF fuel rest = _
        rw [ih rest (by simp only [List.length_cons] at hlt h; omega)]
      | none =>
        rw [maskGo_cons_none c cs hm]
        show (match tagBlockMatchAt (c :: cs) with
          | some (n, rest) => List.replicate n fillerGlyph ++ maskGoF fuel rest
          | none => c :: maskGoF fuel cs) = _
        rw [hm]
        show c :: maskGoF fuel cs = _
        rw [ih cs (by simp only [List.length_cons] at h; omega)]

theorem mask_eq_maskGo (text : List Char) : mask_existing_tags text = maskGo text :=
  maskGoF_eq_maskGo (text.length + 1) text (by omega)

theorem unredactGo_nil (inv : Inventory) : unredactGo inv [] = [] := by
  rw [unredactGo]

theorem unredactGo_cons_some (inv : Inventory) (c : Char) (cs : List Char)
    (idv : Nat) (v : VarT) (matched rest : List Char)
    (hm : tagVariantMatchAt (c :: cs) = some (idv, v, matched, rest)) :
    unredactGo inv (c :: cs) = replFor inv idv v matched ++ unredactGo inv rest := by
  rw [unredactGo]
  split
  · next i' v' m' r' heq =>
    rw [hm] at heq
    injection heq with heq
    injection heq with h1 heq
    injection heq with h2 heq
    injection heq with h3 h4
    subst h1
    subst h2
    subst h3
    subst h4
    rfl
  · next heq =>
    rw [hm] at heq
    cases heq

theorem unredactGo_cons_none (inv : Inventory) (c : Char) (cs : List Char)
    (hm : tagVariantMatchAt (c :: cs) = none) :
    unredactGo inv (c :: cs) = c :: unredactGo inv cs := by
  rw [unredactGo]
  split
  · next i' v' m' r' heq =>
    rw [hm] at heq
    cases heq
  · rfl

theorem unredactGoF_eq_unredactGo (inv : Inventory) (fuel : Nat) (cs : List Char)
    (h : cs.length ≤ fuel) : unredactGoF inv fuel cs = unredactGo inv cs := by
  induction fuel generalizing cs with
  | zero =>
    have hnil : cs = [] := by
      cases cs with
      | nil => rfl
      | cons a l => simp at h
    subst hnil
    rw [unredactGo_nil]
    rfl
  | succ fuel ih =>
    cases cs with
    | nil => rw [unredactGo_nil]; rfl
    | cons c cs =>
      cases hm : tagVariantMatchAt (c :: cs) with
      | some q =>
        obtain ⟨idv, v, matched, rest⟩ := q
        have hlt : rest.length < (c :: cs).length :=
          tagVariantMatchAt_rest_lt _ _ _ _ _ hm
        rw [unredactGo_cons_some inv c cs idv v matched rest hm]
        show (match tagVariantMatchAt (c :: cs) with
          | some (idv, v, matched, rest) =>
            replFor inv idv v matched ++ unredactGoF inv fuel rest
          | none => c :: unredactGoF inv fuel cs) = _
        rw [hm]
        show replFor inv idv v matched ++ unredactGoF inv fuel rest = _
        rw [ih rest (by simp only [List.length_cons] at hlt h; omega)]
      | none =>
        rw [unredactGo_cons_none inv c cs hm]
        show (match tagVariantMatchAt (c :: cs) with
          | some (idv, v, matched, rest) =>
            replFor inv idv v matched ++ unredactGoF inv fuel rest
          | none => c :: unredactGoF inv fuel cs) = _
        rw [hm]
        show c :: unredactGoF inv fuel cs = _
        rw [ih cs (by simp only [List.length_cons] at h; omega)]

theorem unredact_eq_unredactGo (text : List Char) (inv : Inventory) :
    unredact_text text inv = unredactGo inv text :=
  unredactGoF_eq_unredactGo inv (text.length + 1) text (by omega)

/-! Pattern matcher, from automaton.py. -/

/-- One entry of the flattened pattern set handed to build_automaton:
(item_id, code, desc, variant, alias_id, surface). -/
structure Pattern where
  item_id : Int
  code : List Char
  desc : List Char
  variant : List Char
  alias_id : Option Int
  surface : List Char
deriving DecidableEq

/-- A raw or resolved match (automaton.py, dataclass Match).  The
exclusive end offset is named stop because end is reserved in Lean. -/
structure Match where
  start : Int
  stop : Int
  item_id : Int
  code : List Char
  desc : List Char
  surface : List Char
  variant : List Char
  alias_id : Option Int
deriving DecidableEq

/-- Registering one keyword in the automaton: the trie holds one payload
per distinct word, and adding an existing word overwrites its payload. -/
def addWord (aut : List (List Char × Pattern)) (w : List Char) (p : Pattern) :
    List (List Char × Pattern) :=
  if aut.any (fun kv => kv.1 == w) then
    aut.map (fun kv => if kv.1 == w then (w, p) else kv)
  else aut ++ [(w, p)]

/-- automaton.build_automaton: register every pattern with a nonempty
surface under its surface keyword. -/
def build_automaton (ps : List Pattern) : List (List Char × Pattern) :=
  ps.foldl (fun a p => if p.surface.isEmpty then a else addWord a p.surface p) []

/-- Modelled from the spec: the Aho-Corasick automaton object and its iter
method come from the external pyahocorasick library, which is not part of
this repository.  Section 4.2 of the spec specifies its contract: the
matcher reports every occurrence of every registered keyword in the
scanned text as an end index plus payload, iterating by end index
ascending.  This definition realises exactly that contract over the
keyword-to-payload association built by build_automaton. -/
def autIter (aut : List (List Char × Pattern)) (text : List Char) :
    List (Nat × Pattern) :=
  (List.range text.length).flatMap (fun e =>
    (aut.filter (fun kv => kv.1.isSuffixOf (text.take (e + 1)))).map
      (fun kv => (e, kv.2)))

/-- automaton.collect_matches: wrap every reported occurrence in a Match,
computing the inclusive start as end index minus surface length plus one. -/
def collect_matches (aut : List (List Char × Pattern)) (text : List Char) :
    List Match :=
  (autIter aut text).map (fun ep =>
    { start := (ep.1 : Int) - ep.2.surface.length + 1
      stop := (ep.1 : Int) + 1
      item_id := ep.2.item_id
      code := ep.2.code
      desc := ep.2.desc
      surface := ep.2.surface
      variant := ep.2.variant
      alias_id := ep.2.alias_id })

/-- Strict comparison realising the Python sort key
(start ascending, length descending) of select_leftmost_longest. -/
def matchLt (a b : Match) : Bool :=
  a.start < b.start || (a.start == b.start && (b.stop - b.start) < (a.stop - a.start))

/-- Stable insertion of a match into a list sorted by matchLt: the new
element goes after every strictly smaller element and before the first
element it does not strictly exceed, preserving input order among equal
keys, as the stable Python sort does. -/
def insertSorted (x : Match) : List Match → List Match
  | [] => [x]
  | y :: ys => if matchLt y x then y :: insertSorted x ys else x :: y :: ys

/-- Stable sort by (start ascending, length descending), the embedding of
sorted with that key. -/
def sortMatches (ms : List Match) : List Match := ms.foldr insertSorted []

/-- One step of the selection loop of select_leftmost_longest: the state
is the selected list plus the last end, initially -1. -/
def selStep (acc : List Match × Int) (m : Match) : List Match × Int :=
  if m.start ≥ acc.2 then (acc.1 ++ [m], m.stop) else acc

/-- automaton.select_leftmost_longest: sort, then sweep left to right with
a cursor, keeping a match iff its start is at or past the cursor. -/
def select_leftmost_longest (ms : List Match) : List Match :=
  ((sortMatches ms).foldl selStep ([], -1)).1

/-- The sweep of section 4.3 of the spec, written as a direct recursion on
the sorted list: keep a match iff its start is at or past the cursor, and
advance the cursor to its end. -/
def sweepSpec : Int → List Match → List Match
  | _, [] => []
  | c, m :: ms => if m.start ≥ c then m :: sweepSpec m.stop ms else sweepSpec c ms

/-! Markdown segmentation, from mdseg.py: the FENCE regular expression,
an opening line starting with three backticks, a lazy body, and a closing
line consisting of exactly three backticks, in multiline plus dotall mode. -/

/-- Position p is at a line start (regex caret in multiline mode). -/
def isLineStart (cs : List Char) (p : Nat) : Bool :=
  p == 0 || cs[p - 1]? == some '\n'

/-- Position p is at a line end (regex dollar in multiline mode). -/
def dollarAt (cs : List Char) (p : Nat) : Bool :=
  p == cs.length || cs[p]? == some '\n'

/-- The pattern occurs at position p of the text. -/
def startsWithAt (pat cs : List Char) (p : Nat) : Bool :=
  pat.isPrefixOf (cs.drop p)

/-- Search the first closing fence line at or after position r: a line
start, three backticks, and a line end directly after them.  Returns the
position just past the backticks. -/
def fenceCloseSearch (cs : List Char) : Nat → Nat → Option Nat
  | 0, _ => none
  | fuel + 1, r =>
    if r + 3 > cs.length then none
    else if isLineStart cs r && startsWithAt ("```".data) cs r && dollarAt cs (r + 3) then
      some (r + 3)
    else fenceCloseSearch cs fuel (r + 1)

/-- Match the FENCE regex at position p: an opening fence line (three
backticks, then lazily to the end of that line), then the nearest closing
fence line.  Returns the exclusive end of the whole match. -/
def fenceMatchAt (cs : List Char) (p : Nat) : Option Nat :=
  if isLineStart cs p && startsWithAt ("```".data) cs p then
    fenceCloseSearch cs (cs.length + 1)
      (p + 3 + ((cs.drop (p + 3)).takeWhile (fun c => c ≠ '\n')).length)
  else none

/-- Leftmost FENCE match at or after position p, as finditer yields it. -/
def findFenceFrom (cs : List Char) : Nat → Nat → Option (Nat × Nat)
  | 0, _ => none
  | fuel + 1, p =>
    if p > cs.length then none
    else
      match fenceMatchAt cs p with
      | some e => some (p, e)
      | none => findFenceFrom cs fuel (p + 1)

/-- The loop body of mdseg.segment: emit the redactable text before each
fence, the fence itself as non-redactable, and finally the redactable
tail if it is nonempty. -/
def segmentGo (cs : List Char) : Nat → Nat → List (List Char × Bool)
  | 0, _ => []
  | fuel + 1, pos =>
    match findFenceFrom cs (cs.length + 1) pos with
    | none => if pos < cs.length then [(cs.drop pos, true)] else []
    | some (s, e) =>
      (if pos < s then [((cs.drop pos).take (s - pos), true)] else []) ++
        ((cs.drop s).take (e - s), false) :: segmentGo cs fuel e

/-- mdseg.segment. -/
def segmentL (cs : List Char) : List (List Char × Bool) := segmentGo cs (cs.length + 1) 0

/-! The redaction pipeline, from redact.py. -/

/-- The tag text emitted for a selected match, from the f-string in
apply_redactions.  A canonical match renders variant c; any other variant
renders the letter a followed by the Python string form of alias_id,
which for a missing alias id is the text None. -/
def renderTagM (m : Match) : List Char :=
  "[REDACTED(#".data ++ intStr m.item_id ++ "|var=".data ++
    (if m.variant = ['c'] then ['c']
     else 'a' :: (match m.alias_id with
       | some k => intStr k
       | none => "None".data)) ++
    "): ".data ++ m.code ++ ", ".data ++ m.desc ++ "]".data

/-- The right-to-left splice of apply_redactions: walk the selected
matches in reverse, emitting the text after each match up to the cursor,
then its tag, then moving the cursor to the match start; finally emit the
head of the chunk and join the collected pieces in reverse. -/
def spliceTags (chunk : List Char) (sel : List Match) : List Char :=
  let res := sel.reverse.foldl
    (fun (acc : List (List Char) × Int) m =>
      (acc.1 ++ [pySlice chunk m.stop acc.2, renderTagM m, pySlice chunk m.start m.start],
        m.start))
    ([], (chunk.length : Int))
  ((res.1 ++ [pySlice chunk 0 res.2]).reverse).flatten

/-- The flattened pattern list built at the top of apply_redactions: for
each item its canonical surface, then one pattern per alias.  The Python
guard "if alias" is always true for an alias object and filters nothing. -/
def patternsOf (inv : Inventory) : List Pattern :=
  inv.items.flatMap (fun it =>
    ⟨it.id, it.code, it.desc, ['c'], none, it.surface⟩ ::
      it.aliases.map (fun al => ⟨it.id, it.code, it.desc, ['a'], some al.id, al.surface⟩))

/-- redact.apply_redactions: build the automaton from the inventory
snapshot, segment the document, and for each redactable segment mask
existing tags, collect matches on the masked copy, resolve conflicts and
splice tags into the original chunk; non-redactable segments pass through
verbatim. -/
def apply_redactions (text : List Char) (inv : Inventory) : List Char × List Match :=
  if (patternsOf inv).isEmpty then (text, [])
  else
    let A := build_automaton (patternsOf inv)
    (segmentL text).foldl
      (fun (acc : List Char × List Match) seg =>
        if seg.2 = false then (acc.1 ++ seg.1, acc.2)
        else
          let sel := select_leftmost_longest
            (collect_matches A (mask_existing_tags seg.1))
          if sel.isEmpty then (acc.1 ++ seg.1, acc.2)
          else (acc.1 ++ spliceTags seg.1 sel, acc.2 ++ sel))
      ([], [])

/-! Inventory operations, from models.py. -/

/-- Python max with default 0: the maximum of a list of integers, or 0
when the list is empty. -/
def maxIntD0 : List Int → Int
  | [] => 0
  | x :: xs => xs.foldl (fun a b => max a b) x

/-- Inventory.next_id. -/
def Inventory.next_id (inv : Inventory) : Int :=
  maxIntD0 (inv.items.map (fun it => it.id)) + 1

/-- Digit of the classification code group, 1 to 4. -/
def d14 (c : Char) : Bool := '1' ≤ c && c ≤ '4'

/-- Upper letter of the classification code group, A to E or X. -/
def uAEX (c : Char) : Bool := ('A' ≤ c && c ≤ 'E') || c = 'X'

/-- Lower letter of the optional classification code group, a to e or x. -/
def laex (c : Char) : Bool := ('a' ≤ c && c ≤ 'e') || c = 'x'

/-- The classification code grammar CODE_RE from patterns.py: a digit
group and an upper group, optionally followed by a lower group, matched
in full. -/
def codeOk (cs : List Char) : Bool :=
  match cs with
  | [a, d, b, c2, u, e] =>
    a = '(' && b = ')' && c2 = '(' && e = ')' && d14 d && uAEX u
  | [a, d, b, c2, u, e, f, l, g] =>
    a = '(' && b = ')' && c2 = '(' && e = ')' && f = '(' && g = ')' &&
      d14 d && uAEX u && laex l
  | _ => false

/-- The default scope of a newly created item. -/
def globalScope : List Char := "global".data

/-- The predicate of the merge loop in Inventory.add_or_merge: an item
merges when it carries the same code and canonical surface, or the same
code and description with the surface already registered as an alias. -/
def mergeHit (code desc ns : List Char) (it : RedactionItem) : Bool :=
  (it.code == code && it.surface == ns) ||
    (it.code == code && it.desc == desc && it.aliases.any (fun al => al.surface == ns))

/-- The item the creation branch of add_or_merge registers: a fresh id,
the given code and description, and the surface as stored by the pydantic
validator, which strips the already-normalised input again. -/
def mergedItem (inv : Inventory) (code desc surface : List Char) : RedactionItem :=
  ⟨inv.next_id, code, desc, pyStrip (pyStrip surface), [], globalScope⟩

/-- Inventory.add_or_merge.  Validation happens inside the pydantic
constructor, so only the creation branch can fail: a code that does not
match CODE_RE or a surface that strips to empty raise there, modelled as
the error case. -/
def add_or_merge (inv : Inventory) (code desc surface : List Char) :
    Except Unit (RedactionItem × Inventory) :=
  match inv.items.find? (mergeHit code desc (pyStrip surface)) with
  | some it => Except.ok (it, inv)
  | none =>
    if codeOk code = false then Except.error ()
    else if (pyStrip (pyStrip surface)).isEmpty then Except.error ()
    else
      Except.ok
        (mergedItem inv code desc surface,
          ⟨inv.items ++ [mergedItem inv code desc surface]⟩)

/-- The failure cases of Inventory.add_alias, named after the error
categories of section 7 of the spec; the source raises ValueError with
distinct messages for the two cases. -/
inductive AliasError where
  | notFound : AliasError
  | validationError : AliasError
deriving DecidableEq

/-- Replace the last item satisfying the predicate, the object the
id-to-item dictionary points at, which add_alias mutates in place. -/
def updateLastBy (l : List RedactionItem) (p : RedactionItem → Bool)
    (f : RedactionItem → RedactionItem) : List RedactionItem :=
  (go l.reverse).reverse
where
  /-- Replace the first hit in the reversed list. -/
  go : List RedactionItem → List RedactionItem
    | [] => []
    | x :: xs => if p x then f x :: xs else x :: go xs

/-- The alias record appended by add_alias. -/
def appendAlias (s : List Char) (it : RedactionItem) : RedactionItem :=
  { it with aliases := it.aliases ++ [⟨maxIntD0 (it.aliases.map (fun al => al.id)) + 1, s⟩] }

/-- Inventory.add_alias. -/
def add_alias (inv : Inventory) (item_id : Int) (alias_surface : List Char) :
    Except AliasError (Int × Inventory) :=
  match inv.find item_id with
  | none => Except.error AliasError.notFound
  | some it =>
    if (pyStrip alias_surface).isEmpty then Except.error AliasError.validationError
    else if pyStrip alias_surface == it.surface ||
        it.aliases.any (fun al => al.surface == pyStrip alias_surface) then
      Except.ok (0, inv)
    else
      Except.ok
        (maxIntD0 (it.aliases.map (fun al => al.id)) + 1,
          ⟨updateLastBy inv.items (fun x => x.id == item_id)
            (appendAlias (pyStrip alias_surface))⟩)

/-! The tag grammar of section 6 of the spec, used to state which
substrings count as tags for the claims about masking and round trips. -/

/-- Parse a classification code by the grammar at the head of the input,
returning the remainder. -/
def parseCode (cs : List Char) : Option (List Char) :=
  match cs with
  | '(' :: d :: ')' :: '(' :: u :: ')' :: rest =>
    if d14 d && uAEX u then
      match rest with
      | '(' :: l :: ')' :: rest2 => if laex l then some rest2 else none
      | _ => some rest
    else none
  | _ => none

/-- Whether a string is exactly one tag of the section 6 grammar: the
REDACTED marker with item id and variant, a colon and space, a
classification code, a comma and space, and a description free of closing
brackets, ending with the closing bracket. -/
def isTag6 (cs : List Char) : Bool :=
  match eatLit ("[REDACTED(#".data) cs with
  | none => false
  | some r1 =>
    match eatDigits1 r1 with
    | none => false
    | some (_, r2) =>
      match eatLit ("|var=".data) r2 with
      | none => false
      | some r3 =>
        match parseVar r3 with
        | none => false
        | some (_, r4) =>
          match eatLit ("): ".data) r4 with
          | none => false
          | some r5 =>
            match parseCode r5 with
            | none => false
            | some r6 =>
              match eatLit (", ".data) r6 with
              | none => false
              | some r7 =>
                match r7.getLast? with
                | none => false
                | some ch => ch = ']' && r7.dropLast.all (fun c => c ≠ ']')

/-- Whether some substring of the text is a section 6 tag. -/
def hasTag6Sub (cs : List Char) : Bool :=
  (List.range (cs.length + 1)).any (fun a =>
    (List.range (cs.length + 1)).any (fun b =>
      decide (a < b) && isTag6 ((cs.take b).drop a)))

/-- Every item and alias surface of the inventory is nonempty and
trimmed, the validity the data model demands of surfaces. -/
def surfacesValid (inv : Inventory) : Bool :=
  inv.items.all (fun it =>
    (!it.surface.isEmpty) && pyStrip it.surface == it.surface &&
      it.aliases.all (fun al => (!al.surface.isEmpty) && pyStrip al.surface == al.surface))

/-- Rendering of a variant marker inside a tag. -/
def renderVar : VarT → List Char
  | VarT.c => ['c']
  | VarT.a k => 'a' :: natDigits k

/-- A tag of the section 6 grammar assembled from its components. -/
def renderTag (idv : Nat) (v : VarT) (code desc : List Char) : List Char :=
  "[REDACTED(#".data ++ natDigits idv ++ "|var=".data ++ renderVar v ++
    "): ".data ++ code ++ ", ".data ++ desc ++ "]".data

/-! Concrete instances used to evaluate the code on failing inputs. -/

/-- An inventory with one valid item whose canonical surface is an email
address. -/
def invEmail : Inventory :=
  ⟨[⟨1, "(1)(A)(c)".data, "email address".data, "kal@knight.club".data, [], "global".data⟩]⟩

/-- A document that contains no substring matching the section 6 tag
grammar: it carries an unterminated tag lookalike prefix with an unknown
item id, followed by the canonical surface of invEmail. -/
def textTagPrefix : List Char := "[REDACTED(#9|var=c): x, kal@knight.club".data

/-- An inventory with one valid item whose description mentions its own
canonical surface. -/
def invDescSurface : Inventory :=
  ⟨[⟨1, "(1)(A)(c)".data, "email kal@knight.club".data, "kal@knight.club".data, [], "global".data⟩]⟩

/-- The canonical surface of invDescSurface as a document. -/
def surfaceText : List Char := "kal@knight.club".data

/-- A complete tag of the section 6 grammar. -/
def tagText46 : List Char := "[REDACTED(#1|var=c): (1)(A)(c), email address]".data

/-- C1: the round-trip property fails on the code.  The document
textTagPrefix contains no substring matching the section 6 tag grammar and
the inventory invEmail has only valid trimmed nonempty surfaces, yet
unredacting the redacted document does not restore the original: the
unredaction regex begins a match at the tag lookalike prefix already
present in the document, swallows the genuine emitted tag inside its
description part, and, because item 9 is unknown, leaves the whole span
verbatim, so the embedded tag is never expanded. -/
theorem C1_roundtrip_fails_on_tag_free_text :
    hasTag6Sub textTagPrefix = false ∧ surfacesValid invEmail = true ∧
      unredact_text (apply_redactions textTagPrefix invEmail).1 invEmail ≠ textTagPrefix := by
  decide

/-- C2: mask_existing_tags does not overwrite tags of the section 6
grammar.  The stale TAG_BLOCK pattern in mdseg.py lacks the variant part
of the emitted tag format, so a full section 6 tag passes through the
masker unchanged instead of being overwritten with the filler glyph, in
contradiction with the repository test that asserts the REDACTED marker
is gone after masking. -/
theorem C2_mask_leaves_variant_tag_unmasked :
    mask_existing_tags tagText46 = tagText46 ∧ isTag6 tagText46 = true ∧
      tagText46 ≠ List.replicate tagText46.length fillerGlyph := by
  decide

/-- C3: redaction is not idempotent on the code.  Redacting the one-word
document surfaceText yields a tag whose description contains the surface;
because the stale masking pattern does not blank the emitted tag, the
second pass matches the surface inside the tag description, emits a new
nested tag and reports a new nonempty match list. -/
theorem C3_second_pass_retags :
    (apply_redactions (apply_redactions surfaceText invDescSurface).1 invDescSurface).1 ≠
        (apply_redactions surfaceText invDescSurface).1 ∧
      (apply_redactions (apply_redactions surfaceText invDescSurface).1 invDescSurface).2 ≠
        [] := by
  decide

/-! Lemmas about the conflict resolver. -/

theorem foldl_selStep (l : List Match) (acc : List Match) (c : Int) :
    (l.foldl selStep (acc, c)).1 = acc ++ sweepSpec c l := by
  induction l generalizing acc c with
  | nil => simp [sweepSpec]
  | cons m l ih =>
    simp only [List.foldl_cons, selStep, sweepSpec]
    by_cases h : m.start ≥ c
    · rw [if_pos h, if_pos h, ih]
      simp
    · rw [if_neg h, if_neg h]
      exact ih acc c

theorem select_eq_sweep (ms : List Match) :
    select_leftmost_longest ms = sweepSpec (-1) (sortMatches ms) := by
  unfold select_leftmost_longest
  rw [foldl_selStep]
  simp

theorem sweepSpec_head_ge (l : List Match) (c : Int) (x : Match)
    (h : (sweepSpec c l).head? = some x) : c ≤ x.start := by
  induction l generalizing c with
  | nil => simp [sweepSpec] at h
  | cons m l ih =>
    simp only [sweepSpec] at h
    by_cases hc : m.start ≥ c
    · rw [if_pos hc] at h
      simp only [List.head?_cons, Option.some.injEq] at h
      subst h
      exact hc
    · rw [if_neg hc] at h
      exact ih c h

theorem sweepSpec_chain (l : List Match) (c : Int) :
    List.Chain' (fun a b => a.stop ≤ b.start) (sweepSpec c l) := by
  induction l generalizing c with
  | nil => simp [sweepSpec]
  | cons m l ih =>
    simp only [sweepSpec]
    by_cases hc : m.start ≥ c
    · rw [if_pos hc, List.chain'_cons']
      refine ⟨fun y hy => ?_, ih m.stop⟩
      exact sweepSpec_head_ge l m.stop y (Option.mem_def.mp hy)
    · rw [if_neg hc]
      exact ih c

theorem sweepSpec_sublist (l : List Match) (c : Int) :
    (sweepSpec c l).Sublist l := by
  induction l generalizing c with
  | nil => simp [sweepSpec]
  | cons m l ih =>
    simp only [sweepSpec]
    by_cases hc : m.start ≥ c
    · rw [if_pos hc]
      exact (ih m.stop).cons₂ m
    · rw [if_neg hc]
      exact (ih c).cons m

theorem matchLt_true_iff (a b : Match) :
    matchLt a b = true ↔
      (a.start < b.start ∨ (a.start = b.start ∧ b.stop - b.start < a.stop - a.start)) := by
  simp [matchLt]

theorem matchLt_false_iff (a b : Match) :
    matchLt a b = false ↔
      ¬(a.start < b.start ∨ (a.start = b.start ∧ b.stop - b.start < a.stop - a.start)) := by
  rw [← matchLt_true_iff]
  simp

/-- The non-strict order underlying the sort key: a precedes or ties b. -/
def matchLe (a b : Match) : Prop := matchLt b a = false

theorem matchLt_asymm (a b : Match) (h : matchLt a b = true) : matchLt b a = false := by
  rw [matchLt_true_iff] at h
  rw [matchLt_false_iff]
  omega

theorem matchLt_false_trans (a b c : Match) (hab : matchLt b a = false)
    (hbc : matchLt c b = false) : matchLt c a = false := by
  rw [matchLt_false_iff] at hab hbc ⊢
  omega

theorem mem_insertSorted (x z : Match) (l : List Match)
    (h : z ∈ insertSorted x l) : z = x ∨ z ∈ l := by
  induction l with
  | nil =>
    have h' : z ∈ [x] := h
    simp only [List.mem_singleton] at h'
    exact Or.inl h'
  | cons y ys ih =>
    have hif : z ∈ (if matchLt y x then y :: insertSorted x ys else x :: y :: ys) := h
    clear h
    cases hc : matchLt y x with
    | true =>
      rw [hc] at hif
      simp only [if_true] at hif
      rcases List.mem_cons.mp hif with h1 | h2
      · exact Or.inr (List.mem_cons.mpr (Or.inl h1))
      · rcases ih h2 with h3 | h4
        · exact Or.inl h3
        · exact Or.inr (List.mem_cons.mpr (Or.inr h4))
    | false =>
      rw [hc] at hif
      simp only [Bool.false_eq_true, if_false] at hif
      rcases List.mem_cons.mp hif with h1 | h2
      · exact Or.inl h1
      · exact Or.inr h2

theorem pairwise_insertSorted (x : Match) (l : List Match)
    (hl : l.Pairwise matchLe) : (insertSorted x l).Pairwise matchLe := by
  induction l with
  | nil => exact List.pairwise_singleton _ _
  | cons y ys ih =>
    rw [List.pairwise_cons] at hl
    obtain ⟨hy, hys⟩ := hl
    cases hc : matchLt y x with
    | true =>
      simp only [insertSorted, hc]
      show List.Pairwise matchLe (y :: insertSorted x ys)
      rw [List.pairwise_cons]
      refine ⟨fun z hz => ?_, ih hys⟩
      rcases mem_insertSorted x z ys hz with rfl | hzys
      · exact matchLt_asymm y z hc
      · exact hy z hzys
    | false =>
      simp only [insertSorted, hc]
      show List.Pairwise matchLe (x :: y :: ys)
      rw [List.pairwise_cons]
      refine ⟨fun z hz => ?_, List.pairwise_cons.mpr ⟨hy, hys⟩⟩
      rcases List.mem_cons.mp hz with rfl | hzys
      · exact hc
      · exact matchLt_false_trans x y z hc (hy z hzys)

theorem sortMatches_pairwise (ms : List Match) :
    (sortMatches ms).Pairwise matchLe := by
  unfold sortMatches
  induction ms with
  | nil => simp
  | cons m l ih =>
    simp only [List.foldr_cons]
    exact pairwise_insertSorted m _ ih

/-- C4: for every list of raw matches, the resolved list returned by
select_leftmost_longest is pairwise non-overlapping and ordered by start:
every adjacent pair satisfies first end at most next start, and the
starts are non-decreasing. -/
theorem C4_selected_nonoverlapping_ordered (ms : List Match) :
    List.Chain' (fun a b => a.stop ≤ b.start) (select_leftmost_longest ms) ∧
      List.Chain' (fun a b => a.start ≤ b.start) (select_leftmost_longest ms) := by
  constructor
  · rw [select_eq_sweep]
    exact sweepSpec_chain _ _
  · rw [select_eq_sweep]
    have hp : (sortMatches ms).Pairwise (fun a b => a.start ≤ b.start) := by
      refine (sortMatches_pairwise ms).imp ?_
      intro a b hab
      rw [matchLe, matchLt_false_iff] at hab
      omega
    exact (hp.sublist (sweepSpec_sublist _ _)).chain'

/-- The length-3 candidate of the leftmost-longest tie-break scenario:
the surface foo at offset 10. -/
def mFoo : Match :=
  ⟨10, 13, 1, "(1)(A)".data, "d1".data, "foo".data, ['c'], none⟩

/-- The length-6 candidate of the leftmost-longest tie-break scenario:
the surface foobar at offset 10. -/
def mFoobar : Match :=
  ⟨10, 16, 2, "(1)(A)".data, "d2".data, "foobar".data, ['c'], none⟩

/-- C5: select_leftmost_longest implements the leftmost-longest rule: on
every input it equals the cursor sweep of the list stably sorted by
(start ascending, length descending), and on the spec scenario with
candidates foo (length 3) and foobar (length 6) both at offset 10 it
selects only foobar, in either presentation order. -/
theorem C5_leftmost_longest_rule :
    (∀ ms : List Match, select_leftmost_longest ms = sweepSpec (-1) (sortMatches ms)) ∧
      select_leftmost_longest [mFoo, mFoobar] = [mFoobar] ∧
      select_leftmost_longest [mFoobar, mFoo] = [mFoobar] :=
  ⟨select_eq_sweep, by decide, by decide⟩

/-! Lemmas about pyStrip. -/

theorem dropWhile_idem (p : Char → Bool) (l : List Char) :
    (l.dropWhile p).dropWhile p = l.dropWhile p := by
  induction l with
  | nil => simp
  | cons a l ih =>
    by_cases h : p a
    · simp [List.dropWhile_cons, h, ih]
    · simp [List.dropWhile_cons, h]

theorem dropWhile_head_false (p : Char → Bool) (l : List Char) (a : Char)
    (t : List Char) (h : l.dropWhile p = a :: t) : p a = false := by
  induction l with
  | nil => simp at h
  | cons b l ih =>
    rw [List.dropWhile_cons] at h
    split at h
    · exact ih h
    · next hb =>
      injection h with h1 h2
      subst h1
      cases hpb : p b with
      | false => rfl
      | true => exact absurd hpb hb

/-- Trimming from the right only, the second half of pyStrip. -/
def stripR (l : List Char) : List Char :=
  (l.reverse.dropWhile isPySpace).reverse

theorem pyStrip_eq_stripR (s : List Char) :
    pyStrip s = stripR (s.dropWhile isPySpace) := rfl

theorem stripR_prefix (m : List Char) : stripR m <+: m := by
  have h : m.reverse.dropWhile isPySpace <:+ m.reverse := List.dropWhile_suffix _
  have := List.reverse_prefix.mpr h
  rwa [List.reverse_reverse] at this

theorem stripR_idem (m : List Char) : stripR (stripR m) = stripR m := by
  unfold stripR
  rw [List.reverse_reverse, dropWhile_idem]

theorem pyStrip_idem (s : List Char) : pyStrip (pyStrip s) = pyStrip s := by
  have hma : (s.dropWhile isPySpace).dropWhile isPySpace = s.dropWhile isPySpace :=
    dropWhile_idem isPySpace s
  rw [pyStrip_eq_stripR s, pyStrip_eq_stripR]
  have hA : (stripR (s.dropWhile isPySpace)).dropWhile isPySpace
      = stripR (s.dropWhile isPySpace) := by
    cases h : stripR (s.dropWhile isPySpace) with
    | nil => simp
    | cons a t =>
      obtain ⟨r, hr⟩ := stripR_prefix (s.dropWhile isPySpace)
      rw [h] at hr
      have hcons : s.dropWhile isPySpace = a :: (t ++ r) := by
        rw [← hr]
        simp
      have hpa : isPySpace a = false :=
        dropWhile_head_false isPySpace (s.dropWhile isPySpace) a (t ++ r)
          (by rw [hma]; exact hcons)
      rw [List.dropWhile_cons, hpa]
      simp
  rw [hA, stripR_idem]

theorem pyStrip_ne_nil_iter (s : List Char) (h : pyStrip s ≠ []) :
    pyStrip (pyStrip s) ≠ [] := by
  rwa [pyStrip_idem]

/-! C6: add_or_merge idempotence. -/

/-- The two successive add_or_merge calls of the merge idempotence
scenario, reporting the two returned item ids and the item counts before
and after; none when either call fails validation. -/
def addTwice (inv : Inventory) (code desc surf : List Char) :
    Option (Int × Int × Nat × Nat) :=
  match add_or_merge inv code desc surf with
  | Except.error _ => none
  | Except.ok (it1, inv1) =>
    match add_or_merge inv1 code desc surf with
    | Except.error _ => none
    | Except.ok (it2, inv2) => some (it1.id, it2.id, inv.items.length, inv2.items.length)

/-- The inventory that already carries the item being merged. -/
def itemAlice : RedactionItem :=
  ⟨1, "(1)(A)(c)".data, "email address".data, "alice@example.com".data, [], "global".data⟩

/-- An inventory already holding itemAlice. -/
def invWithAlice : Inventory := ⟨[itemAlice]⟩

/-- C6 counterexample: on an inventory that already carries an item with
the same code and surface, calling add_or_merge twice with identical valid
arguments returns the same item id both times but the items list grows by
zero, not by one: the length stays 1 over both calls, refuting growth by
exactly 1 for every inventory. -/
theorem C6_counterexample_already_present :
    addTwice invWithAlice "(1)(A)(c)".data "email address".data "alice@example.com".data =
        some (1, 1, 1, 1) ∧ (1 : Nat) ≠ 1 + 1 := by
  decide

/-- C6 amended: calling add_or_merge twice with identical arguments, a
valid code and a surface that is nonempty after trimming, succeeds twice
and returns an item with the same id both times; the items list grows by
exactly 1 over the two calls when no existing item already merges with
(code, desc, trimmed surface), and by 0 otherwise. -/
theorem C6_amended_merge_idempotent (inv : Inventory) (code desc surf : List Char)
    (hc : codeOk code = true) (hs : pyStrip surf ≠ []) :
    ∃ it1 inv1 it2 inv2,
      add_or_merge inv code desc surf = Except.ok (it1, inv1) ∧
        add_or_merge inv1 code desc surf = Except.ok (it2, inv2) ∧
        it1.id = it2.id ∧
        inv2.items.length =
          (if (inv.items.find? (mergeHit code desc (pyStrip surf))).isSome then
            inv.items.length
          else inv.items.length + 1) := by
  cases hf : inv.items.find? (mergeHit code desc (pyStrip surf)) with
  | some it =>
    refine ⟨it, inv, it, inv, ?_, ?_, rfl, ?_⟩
    · unfold add_or_merge
      rw [hf]
    · unfold add_or_merge
      rw [hf]
    · simp
  | none =>
    have hie : (pyStrip (pyStrip surf)).isEmpty = false := by
      rw [pyStrip_idem]
      exact List.isEmpty_eq_false.mpr hs
    have h1 : add_or_merge inv code desc surf =
        Except.ok
          (mergedItem inv code desc surf,
            ⟨inv.items ++ [mergedItem inv code desc surf]⟩) := by
      unfold add_or_merge
      rw [hf, hc, hie]
      simp
    have hhit : mergeHit code desc (pyStrip surf) (mergedItem inv code desc surf) = true := by
      unfold mergeHit mergedItem
      simp [pyStrip_idem]
    have hfind2 : (inv.items ++ [mergedItem inv code desc surf]).find?
          (mergeHit code desc (pyStrip surf)) =
        some (mergedItem inv code desc surf) := by
      rw [List.find?_append, hf, Option.none_or, List.find?_singleton]
      simp [hhit]
    have h2 : add_or_merge
        (⟨inv.items ++ [mergedItem inv code desc surf]⟩ : Inventory) code desc surf =
        Except.ok
          (mergedItem inv code desc surf,
            ⟨inv.items ++ [mergedItem inv code desc surf]⟩) := by
      unfold add_or_merge
      rw [show (⟨inv.items ++ [mergedItem inv code desc surf]⟩ : Inventory).items =
          inv.items ++ [mergedItem inv code desc surf] from rfl,
        hfind2]
    refine ⟨_, _, _, _, h1, h2, rfl, ?_⟩
    simp

/-- C6 witness: merging a fresh email item twice into the empty inventory
yields id 1 both times and one item in total. -/
theorem C6_witness :
    codeOk ("(1)(A)(c)".data) = true ∧ pyStrip ("alice@example.com".data) ≠ [] ∧
      (∃ it1 inv1 it2 inv2,
        add_or_merge ⟨[]⟩ ("(1)(A)(c)".data) ("email address".data)
            ("alice@example.com".data) = Except.ok (it1, inv1) ∧
          add_or_merge inv1 ("(1)(A)(c)".data) ("email address".data)
              ("alice@example.com".data) = Except.ok (it2, inv2) ∧
          it1.id = it2.id ∧
          inv2.items.length =
            (if ((⟨[]⟩ : Inventory).items.find?
                (mergeHit ("(1)(A)(c)".data) ("email address".data)
                  (pyStrip ("alice@example.com".data)))).isSome then
              (⟨[]⟩ : Inventory).items.length
            else (⟨[]⟩ : Inventory).items.length + 1)) :=
  ⟨by decide, by decide,
    C6_amended_merge_idempotent ⟨[]⟩ _ _ _ (by decide) (by decide)⟩

/-! Lemmas about updateLastBy and Inventory.find. -/

theorem updateLastBy_go_find? (p : RedactionItem → Bool)
    (f : RedactionItem → RedactionItem) (hpf : ∀ x, p x = true → p (f x) = true)
    (l : List RedactionItem) :
    (updateLastBy.go p f l).find? p = (l.find? p).map f := by
  induction l with
  | nil => rfl
  | cons x xs ih =>
    show (if p x then f x :: xs else x :: updateLastBy.go p f xs).find? p = _
    by_cases hx : p x = true
    · rw [if_pos hx]
      simp [List.find?_cons, hx, hpf x hx]
    · have hx' : p x = false := by
        cases hpx : p x with
        | false => rfl
        | true => exact absurd hpx hx
      rw [if_neg hx]
      simp [List.find?_cons, hx', ih]

theorem updateLastBy_go_length (p : RedactionItem → Bool)
    (f : RedactionItem → RedactionItem) (l : List RedactionItem) :
    (updateLastBy.go p f l).length = l.length := by
  induction l with
  | nil => rfl
  | cons x xs ih =>
    show (if p x then f x :: xs else x :: updateLastBy.go p f xs).length = _
    by_cases hx : p x = true
    · rw [if_pos hx]
      simp
    · rw [if_neg hx]
      simp [ih]

theorem updateLastBy_length (l : List RedactionItem) (p : RedactionItem → Bool)
    (f : RedactionItem → RedactionItem) : (updateLastBy l p f).length = l.length := by
  unfold updateLastBy
  rw [List.length_reverse, updateLastBy_go_length, List.length_reverse]

theorem find_updateLastBy (inv : Inventory) (item_id : Int)
    (f : RedactionItem → RedactionItem) (hf : ∀ x, (f x).id = x.id) :
    Inventory.find
        ⟨updateLastBy inv.items (fun x => x.id == item_id) f⟩ item_id =
      (inv.find item_id).map f := by
  unfold Inventory.find updateLastBy
  rw [List.reverse_reverse]
  exact updateLastBy_go_find? _ f
    (fun x hx => by rw [show ((f x).id == item_id) = (x.id == item_id) from by rw [hf x]]; exact hx)
    inv.items.reverse

/-- C7: the contract of add_alias.  It fails iff the item id is unknown
(NotFound) or the trimmed alias surface is empty (ValidationError, only
reported when the item exists, since the lookup runs first); a surface
equal to the canonical surface or an existing alias surface returns the
sentinel 0 and leaves the inventory unchanged; otherwise it returns the
id max(existing alias ids, default 0) + 1 and appends the alias to the
found item, leaving the item count unchanged. -/
theorem C7_add_alias_contract (inv : Inventory) (item_id : Int) (s : List Char) :
    ((∃ e, add_alias inv item_id s = Except.error e) ↔
        inv.find item_id = none ∨ pyStrip s = []) ∧
      (inv.find item_id = none →
        add_alias inv item_id s = Except.error AliasError.notFound) ∧
      (∀ it, inv.find item_id = some it → pyStrip s = [] →
        add_alias inv item_id s = Except.error AliasError.validationError) ∧
      (∀ it, inv.find item_id = some it → pyStrip s ≠ [] →
        (pyStrip s = it.surface ∨
          it.aliases.any (fun al => al.surface == pyStrip s) = true) →
        add_alias inv item_id s = Except.ok (0, inv)) ∧
      (∀ it, inv.find item_id = some it → pyStrip s ≠ [] →
        ¬(pyStrip s = it.surface ∨
          it.aliases.any (fun al => al.surface == pyStrip s) = true) →
        ∃ inv2, add_alias inv item_id s =
            Except.ok (maxIntD0 (it.aliases.map (fun al => al.id)) + 1, inv2) ∧
          inv2.find item_id = some (appendAlias (pyStrip s) it) ∧
          inv2.items.length = inv.items.length) := by
  cases hfind : inv.find item_id with
  | none =>
    have herr : add_alias inv item_id s = Except.error AliasError.notFound := by
      unfold add_alias
      rw [hfind]
    refine ⟨⟨fun _ => Or.inl rfl, fun _ => ⟨_, herr⟩⟩, fun _ => herr, ?_, ?_, ?_⟩
    · intro it hit
      cases hit
    · intro it hit
      cases hit
    · intro it hit
      cases hit
  | some it0 =>
    by_cases hempty : (pyStrip s).isEmpty = true
    · have hnil : pyStrip s = [] := List.isEmpty_iff.mp hempty
      have herr : add_alias inv item_id s = Except.error AliasError.validationError := by
        unfold add_alias
        simp only [hfind]
        rw [if_pos hempty]
      refine ⟨⟨fun _ => Or.inr hnil, fun _ => ⟨_, herr⟩⟩, ?_, fun _ _ _ => herr, ?_, ?_⟩
      · intro h
        cases h
      · intro it hit hne
        exact absurd hnil hne
      · intro it hit hne
        exact absurd hnil hne
    · have hne : pyStrip s ≠ [] := by
        intro hh
        rw [hh] at hempty
        exact hempty rfl
      have hcond : (pyStrip s = it0.surface ∨
            it0.aliases.any (fun al => al.surface == pyStrip s) = true) ↔
          (pyStrip s == it0.surface ||
            it0.aliases.any (fun al => al.surface == pyStrip s)) = true := by
        simp [Bool.or_eq_true]
      by_cases hdup : (pyStrip s == it0.surface ||
          it0.aliases.any (fun al => al.surface == pyStrip s)) = true
      · have hok : add_alias inv item_id s = Except.ok (0, inv) := by
          unfold add_alias
          simp only [hfind]
          rw [if_neg hempty, if_pos hdup]
        refine ⟨⟨?_, ?_⟩, ?_, ?_, ?_, ?_⟩
        · intro he
          obtain ⟨e, he⟩ := he
          rw [hok] at he
          cases he
        · intro h
          rcases h with h | h
          · cases h
          · exact absurd h hne
        · intro h
          cases h
        · intro it hit hnil
          exact absurd hnil hne
        · intro it hit hne2 hd
          exact hok
        · intro it hit hne2 hnd
          injection hit with hit
          subst hit
          exact absurd (hcond.mpr hdup) hnd
      · have hok : add_alias inv item_id s =
            Except.ok (maxIntD0 (it0.aliases.map (fun al => al.id)) + 1,
              ⟨updateLastBy inv.items (fun x => x.id == item_id)
                (appendAlias (pyStrip s))⟩) := by
          unfold add_alias
          simp only [hfind]
          rw [if_neg hempty, if_neg hdup]
        refine ⟨⟨?_, ?_⟩, ?_, ?_, ?_, ?_⟩
        · intro he
          obtain ⟨e, he⟩ := he
          rw [hok] at he
          cases he
        · intro h
          rcases h with h | h
          · cases h
          · exact absurd h hne
        · intro h
          cases h
        · intro it hit hnil
          exact absurd hnil hne
        · intro it hit hne2 hd
          injection hit with hit
          subst hit
          exact absurd (hcond.mp hd) hdup
        · intro it hit hne2 hnd
          injection hit with hit
          subst hit
          refine ⟨_, hok, ?_, ?_⟩
          · rw [find_updateLastBy inv item_id (appendAlias (pyStrip s)) (fun x => rfl),
              hfind]
            rfl
          · show (updateLastBy inv.items (fun x => x.id == item_id)
                (appendAlias (pyStrip s))).length = inv.items.length
            exact updateLastBy_length _ _ _

/-- C7 witness: on a concrete inventory with one item and one alias, the
fresh-surface branch of add_alias allocates alias id 2 and appends it. -/
theorem C7_witness :
    Inventory.find ⟨[⟨10, "(1)(A)(c)".data, "email address".data,
        "user@example.com".data, [⟨1, "user_alt@example.com".data⟩], "global".data⟩]⟩ 10 =
      some ⟨10, "(1)(A)(c)".data, "email address".data, "user@example.com".data,
        [⟨1, "user_alt@example.com".data⟩], "global".data⟩ ∧
    ∃ inv2, add_alias ⟨[⟨10, "(1)(A)(c)".data, "email address".data,
          "user@example.com".data, [⟨1, "user_alt@example.com".data⟩], "global".data⟩]⟩
          10 ("third@example.com".data) =
        Except.ok (maxIntD0 ((⟨10, "(1)(A)(c)".data, "email address".data,
          "user@example.com".data, [⟨1, "user_alt@example.com".data⟩],
          "global".data⟩ : RedactionItem).aliases.map (fun al => al.id)) + 1, inv2) ∧
      inv2.find 10 = some (appendAlias (pyStrip ("third@example.com".data))
        ⟨10, "(1)(A)(c)".data, "email address".data, "user@example.com".data,
          [⟨1, "user_alt@example.com".data⟩], "global".data⟩) ∧
      inv2.items.length = (⟨[⟨10, "(1)(A)(c)".data, "email address".data,
        "user@example.com".data, [⟨1, "user_alt@example.com".data⟩],
        "global".data⟩]⟩ : Inventory).items.length :=
  ⟨by decide,
    (C7_add_alias_contract _ 10 _).2.2.2.2 _ (by decide) (by decide) (by decide)⟩

/-! Lemmas about the automaton keyword map, for C10. -/

/-- The invariant of every automaton entry: its payload records exactly
its keyword, and keywords are nonempty. -/
def autWf (kv : List Char × Pattern) : Prop := kv.2.surface = kv.1 ∧ kv.1 ≠ []

theorem addWord_wf (aut : List (List Char × Pattern)) (w : List Char) (p : Pattern)
    (hall : ∀ kv ∈ aut, autWf kv) (hwp : autWf (w, p)) :
    ∀ kv ∈ addWord aut w p, autWf kv := by
  intro kv hkv
  unfold addWord at hkv
  split at hkv
  · obtain ⟨kv0, hkv0, heq⟩ := List.mem_map.mp hkv
    by_cases hk : (kv0.1 == w) = true
    · rw [if_pos hk] at heq
      rw [← heq]
      exact hwp
    · rw [if_neg hk] at heq
      rw [← heq]
      exact hall kv0 hkv0
  · rcases List.mem_append.mp hkv with h | h
    · exact hall kv h
    · rw [List.mem_singleton.mp h]
      exact hwp

theorem build_automaton_wf (ps : List Pattern) :
    ∀ kv ∈ build_automaton ps, autWf kv := by
  unfold build_automaton
  suffices h : ∀ aut, (∀ kv ∈ aut, autWf kv) →
      ∀ kv ∈ ps.foldl
        (fun a p => if p.surface.isEmpty then a else addWord a p.surface p) aut,
        autWf kv by
    exact h [] (by intro kv hkv; cases hkv)
  induction ps with
  | nil => intro aut hall kv hkv; exact hall kv hkv
  | cons p ps ih =>
    intro aut hall kv hkv
    simp only [List.foldl_cons] at hkv
    refine ih _ ?_ kv hkv
    by_cases hp : p.surface.isEmpty = true
    · rw [if_pos hp]
      exact hall
    · rw [if_neg hp]
      refine addWord_wf aut p.surface p hall ⟨rfl, ?_⟩
      exact List.isEmpty_eq_false.mp (by cases hpe : p.surface.isEmpty with
        | false => rfl
        | true => exact absurd hpe hp)

/-- C10: every match collected from an automaton built from a pattern
list is well formed: its offsets satisfy 0 at most start, start below
end, end at most the text length, the span length equals the surface
length, and slicing the scanned text at the recorded offsets yields
exactly the recorded surface. -/
theorem C10_collected_matches_wellformed (ps : List Pattern) (text : List Char)
    (m : Match) (hm : m ∈ collect_matches (build_automaton ps) text) :
    0 ≤ m.start ∧ m.start < m.stop ∧ m.stop ≤ (text.length : Int) ∧
      m.stop - m.start = (m.surface.length : Int) ∧
      pySlice text m.start m.stop = m.surface := by
  unfold collect_matches at hm
  obtain ⟨ep, hep, hmk⟩ := List.mem_map.mp hm
  unfold autIter at hep
  obtain ⟨e, he, hin⟩ := List.mem_flatMap.mp hep
  obtain ⟨kv, hkvf, heq⟩ := List.mem_map.mp hin
  obtain ⟨hkv, hsuf⟩ := List.mem_filter.mp hkvf
  obtain ⟨hsurf, hne⟩ := build_automaton_wf ps kv hkv
  rw [List.mem_range] at he
  rw [List.isSuffixOf_iff_suffix] at hsuf
  obtain ⟨pre, hpre⟩ := hsuf
  have hLpos : 0 < kv.1.length := List.length_pos.mpr hne
  have htk : (text.take (e + 1)).length = e + 1 := by
    rw [List.length_take]
    omega
  have hlen : pre.length + kv.1.length = e + 1 := by
    have := congrArg List.length hpre
    simp only [List.length_append] at this
    rw [htk] at this
    exact this
  subst heq
  subst hmk
  simp only
  rw [hsurf]
  refine ⟨by omega, by omega, by omega, by omega, ?_⟩
  unfold pySlice
  have hb : ((e : Int) + 1).toNat = e + 1 := by omega
  have hbn : ¬ ((e : Int) + 1 < 0) := by omega
  have han : ¬ ((e : Int) - kv.1.length + 1 < 0) := by omega
  have ha : ((e : Int) - kv.1.length + 1).toNat = e + 1 - kv.1.length := by omega
  simp only [if_neg hbn, if_neg han, hb, ha]
  have hdrop : e + 1 - kv.1.length = pre.length := by omega
  rw [hdrop, ← hpre, List.drop_left]

/-- C10 witness: the single pattern foo over the text xfoo yields the
match at offsets 1 to 4, which is well formed. -/
theorem C10_witness :
    (⟨1, 4, 7, "(1)(A)".data, "d".data, "foo".data, ['c'], none⟩ : Match) ∈
        collect_matches
          (build_automaton [⟨7, "(1)(A)".data, "d".data, ['c'], none, "foo".data⟩])
          ("xfoo".data) ∧
      0 ≤ (1 : Int) ∧
      pySlice ("xfoo".data) 1 4 = "foo".data :=
  ⟨by decide, by decide,
    (C10_collected_matches_wellformed
      [⟨7, "(1)(A)".data, "d".data, ['c'], none, "foo".data⟩] ("xfoo".data)
      ⟨1, 4, 7, "(1)(A)".data, "d".data, "foo".data, ['c'], none⟩ (by decide)).2.2.2.2⟩

/-! Lemmas for C8: the unredaction scan on a text decomposed as prefix,
tag and suffix. -/

/-- Whether the needle occurs as a substring of the haystack. -/
def containsSub (needle hay : List Char) : Bool :=
  (List.range (hay.length + 1)).any (fun p => needle.isPrefixOf (hay.drop p))

theorem containsSub_false_not_prefix (n h : List Char)
    (hc : containsSub n h = false) : ¬ n.isPrefixOf h = true := by
  unfold containsSub at hc
  rw [List.any_eq_false] at hc
  have h0 := hc 0 (List.mem_range.mpr (by omega))
  simpa using h0

theorem containsSub_cons_false (n : List Char) (c : Char) (h : List Char)
    (hc : containsSub n (c :: h) = false) : containsSub n h = false := by
  unfold containsSub at hc ⊢
  rw [List.any_eq_false] at hc ⊢
  intro p hp
  rw [List.mem_range] at hp
  have := hc (p + 1) (List.mem_range.mpr (by simp; omega))
  simpa using this

theorem digitChar_isDig (d : Nat) (h : d < 10) : isDig (digitChar d) = true := by
  interval_cases d <;> decide

theorem digitChar_toNat (d : Nat) (h : d < 10) : (digitChar d).toNat = 48 + d := by
  interval_cases d <;> decide

theorem natDigitsAux_all_dig (fuel n : Nat) (h : n < fuel) :
    ∀ c ∈ natDigitsAux fuel n, isDig c = true := by
  induction fuel generalizing n with
  | zero => omega
  | succ fuel ih =>
    intro c hc
    unfold natDigitsAux at hc
    split at hc
    · next hn =>
      rw [List.mem_singleton] at hc
      subst hc
      exact digitChar_isDig n hn
    · next hn =>
      rcases List.mem_append.mp hc with h1 | h1
      · exact ih (n / 10) (by omega) c h1
      · rw [List.mem_singleton] at h1
        subst h1
        exact digitChar_isDig _ (Nat.mod_lt _ (by omega))

theorem natDigitsAux_ne_nil (fuel n : Nat) (h : n < fuel) :
    natDigitsAux fuel n ≠ [] := by
  cases fuel with
  | zero => omega
  | succ fuel =>
    unfold natDigitsAux
    split
    · simp
    · simp

theorem natDigitsAux_parse (fuel n : Nat) (h : n < fuel) :
    digitsToNat (natDigitsAux fuel n) = n := by
  induction fuel generalizing n with
  | zero => omega
  | succ fuel ih =>
    unfold natDigitsAux
    split
    · next hn =>
      unfold digitsToNat
      simp [List.foldl_cons, digitChar_toNat n hn]
    · next hn =>
      have hrec := ih (n / 10) (by omega)
      unfold digitsToNat at hrec ⊢
      rw [List.foldl_append, hrec]
      simp [digitChar_toNat (n % 10) (Nat.mod_lt _ (by omega))]
      omega

theorem natDigits_all_dig (n : Nat) : ∀ c ∈ natDigits n, isDig c = true :=
  natDigitsAux_all_dig (n + 1) n (by omega)

theorem natDigits_ne_nil (n : Nat) : natDigits n ≠ [] :=
  natDigitsAux_ne_nil (n + 1) n (by omega)

theorem natDigits_parse (n : Nat) : digitsToNat (natDigits n) = n :=
  natDigitsAux_parse (n + 1) n (by omega)

theorem eatLit_append (lit r : List Char) : eatLit lit (lit ++ r) = some r := by
  unfold eatLit
  rw [if_pos (List.isPrefixOf_iff_prefix.mpr ⟨r, rfl⟩), List.drop_left]

theorem takeWhile_append_stop (p : Char → Bool) (a : List Char) (b : List Char)
    (ha : ∀ x ∈ a, p x = true) (hb : ∀ c r, b = c :: r → p c = false) :
    (a ++ b).takeWhile p = a := by
  rw [List.takeWhile_append]
  have hta : a.takeWhile p = a := List.takeWhile_eq_self_iff.mpr ha
  rw [if_pos (by rw [hta])]
  cases b with
  | nil => simp [hta]
  | cons c r =>
    rw [List.takeWhile_cons, hb c r rfl]
    simp

theorem eatDigits1_natDigits (n : Nat) (c : Char) (r : List Char)
    (hc : isDig c = false) :
    eatDigits1 (natDigits n ++ (c :: r)) = some (n, c :: r) := by
  unfold eatDigits1
  have htw : (natDigits n ++ (c :: r)).takeWhile isDig = natDigits n :=
    takeWhile_append_stop isDig (natDigits n) (c :: r) (natDigits_all_dig n)
      (fun c2 r2 h2 => by injection h2 with h2a h2b; subst h2a; exact hc)
  rw [htw]
  rw [if_neg (by simp [natDigits_ne_nil n])]
  rw [natDigits_parse, List.drop_left]

theorem scanToChar_exact (t : Char) (a r : List Char) (ha : ∀ x ∈ a, x ≠ t)
    (hane : a ≠ []) : scanToChar t (a ++ (t :: r)) = some (a, r) := by
  unfold scanToChar
  have htw : (a ++ (t :: r)).takeWhile (fun c => c ≠ t) = a :=
    takeWhile_append_stop _ a (t :: r) (fun x hx => by simp [ha x hx])
      (fun c2 r2 h2 => by injection h2 with h2a h2b; subst h2a; simp)
  rw [htw]
  rw [if_neg (by simp [hane])]
  rw [List.drop_left]

theorem codeOk_mem_ne (code : List Char) (h : codeOk code = true) :
    ∀ x ∈ code, x ≠ ',' ∧ x ≠ ']' := by
  unfold codeOk at h
  split at h
  · next a d b c2 u e =>
    simp only [Bool.and_eq_true, decide_eq_true_eq] at h
    obtain ⟨⟨⟨⟨⟨ha, hb⟩, hc2⟩, he⟩, hd⟩, hu⟩ := h
    intro x hx
    simp only [List.mem_cons, List.not_mem_nil, or_false] at hx
    rcases hx with rfl | rfl | rfl | rfl | rfl | rfl
    · subst ha; exact ⟨by decide, by decide⟩
    · constructor <;> intro hbad <;> rw [hbad] at hd <;> exact absurd hd (by decide)
    · subst hb; exact ⟨by decide, by decide⟩
    · subst hc2; exact ⟨by decide, by decide⟩
    · constructor <;> intro hbad <;> rw [hbad] at hu <;> exact absurd hu (by decide)
    · subst he; exact ⟨by decide, by decide⟩
  · next a d b c2 u e f l g =>
    simp only [Bool.and_eq_true, decide_eq_true_eq] at h
    obtain ⟨⟨⟨⟨⟨⟨⟨⟨ha, hb⟩, hc2⟩, he⟩, hf⟩, hg⟩, hd⟩, hu⟩, hl⟩ := h
    intro x hx
    simp only [List.mem_cons, List.not_mem_nil, or_false] at hx
    rcases hx with rfl | rfl | rfl | rfl | rfl | rfl | rfl | rfl | rfl
    · subst ha; exact ⟨by decide, by decide⟩
    · constructor <;> intro hbad <;> rw [hbad] at hd <;> exact absurd hd (by decide)
    · subst hb; exact ⟨by decide, by decide⟩
    · subst hc2; exact ⟨by decide, by decide⟩
    · constructor <;> intro hbad <;> rw [hbad] at hu <;> exact absurd hu (by decide)
    · subst he; exact ⟨by decide, by decide⟩
    · subst hf; exact ⟨by decide, by decide⟩
    · constructor <;> intro hbad <;> rw [hbad] at hl <;> exact absurd hl (by decide)
    · subst hg; exact ⟨by decide, by decide⟩
  · exact absurd h (by simp)

theorem prefix_append_left (l a b : List Char) (h : l <+: a ++ b)
    (hle : l.length ≤ a.length) : l <+: a := by
  rw [List.prefix_iff_eq_take] at h ⊢
  rw [List.take_append_of_le_length hle] at h
  exact h

theorem tagVariantMatchAt_some_lit (cs : List Char)
    (q : Nat × VarT × List Char × List Char) (h : tagVariantMatchAt cs = some q) :
    ("[REDACTED(#".data).isPrefixOf cs = true := by
  unfold tagVariantMatchAt at h
  cases hel : eatLit ("[REDACTED(#".data) cs with
  | some r =>
    unfold eatLit at hel
    split at hel
    · next hp => exact hp
    · exact absurd hel (by simp)
  | none =>
    rw [hel, Option.none_bind] at h
    cases h

theorem no_lit_prefix_of_clean (p s : List Char) (hp : p ≠ [])
    (hs : s.head? = some '[')
    (hclean : containsSub ("[REDACTED".data) p = false) :
    ¬ ("[REDACTED(#".data).isPrefixOf (p ++ s) = true := by
  intro hlit
  rw [List.isPrefixOf_iff_prefix] at hlit
  by_cases hlen : 9 ≤ p.length
  · have h9 : ("[REDACTED".data) <+: ("[REDACTED(#".data) := ⟨"(#".data, by rfl⟩
    have h9p : ("[REDACTED".data) <+: p ++ s := h9.trans hlit
    have h9p2 : ("[REDACTED".data) <+: p :=
      prefix_append_left _ p s h9p (by simpa using hlen)
    exact containsSub_false_not_prefix _ _ hclean
      (List.isPrefixOf_iff_prefix.mpr h9p2)
  · cases s with
    | nil => cases hs
    | cons c0 s' =>
      have hc0 : c0 = '[' := by simpa using hs
      subst hc0
      have hppos : 0 < p.length := List.length_pos.mpr hp
      have hlen11 : ("[REDACTED(#".data).length = 11 := rfl
      have hjlt : p.length < ("[REDACTED(#".data).length := by omega
      have hblt : p.length < (p ++ '[' :: s').length := by
        simp only [List.length_append, List.length_cons]
        omega
      have hget : ("[REDACTED(#".data)[p.length] =
          (p ++ '[' :: s')[p.length] :=
        hlit.getElem hjlt
      have hgetr : (p ++ '[' :: s')[p.length] = '[' := by
        rw [List.getElem_append_right (by omega)]
        simp
      rw [hgetr] at hget
      have key : ∀ j, 1 ≤ j → j ≤ 8 → ("[REDACTED(#".data)[j]? ≠ some '[' := by
        decide
      have h2 : ("[REDACTED(#".data)[p.length]? = some '[' := by
        rw [List.getElem?_eq_getElem hjlt, hget]
      exact key p.length hppos (by omega) h2

theorem tagVariantMatchAt_none_of_clean (c : Char) (pre s : List Char)
    (hs : s.head? = some '[')
    (hclean : containsSub ("[REDACTED".data) (c :: pre) = false) :
    tagVariantMatchAt (c :: (pre ++ s)) = none := by
  cases hq : tagVariantMatchAt (c :: (pre ++ s)) with
  | none => rfl
  | some q =>
    exfalso
    have hlit := tagVariantMatchAt_some_lit _ q hq
    have : ("[REDACTED(#".data).isPrefixOf ((c :: pre) ++ s) = true := hlit
    exact no_lit_prefix_of_clean (c :: pre) s (by simp) hs hclean this

theorem unredactGo_append_clean (inv : Inventory) (pre s : List Char)
    (hs : s.head? = some '[')
    (hclean : containsSub ("[REDACTED".data) pre = false) :
    unredactGo inv (pre ++ s) = pre ++ unredactGo inv s := by
  induction pre with
  | nil => simp
  | cons c pre ih =>
    rw [show (c :: pre) ++ s = c :: (pre ++ s) from rfl]
    rw [unredactGo_cons_none inv c (pre ++ s)
      (tagVariantMatchAt_none_of_clean c pre s hs hclean)]
    rw [ih (containsSub_cons_false _ c pre hclean)]
    rfl

theorem renderTag_assoc (idv : Nat) (v : VarT) (code desc post : List Char) :
    renderTag idv v code desc ++ post =
      "[REDACTED(#".data ++ (natDigits idv ++ ("|var=".data ++ (renderVar v ++
        ("):".data ++ ((' ' :: code) ++ (',' :: ((' ' :: desc) ++ (']' :: post)))))))) := by
  unfold renderTag
  simp only [List.append_assoc, List.cons_append, List.nil_append]

theorem eatDigits1_stop (n : Nat) (b : List Char)
    (hb : ∀ c r, b = c :: r → isDig c = false) :
    eatDigits1 (natDigits n ++ b) = some (n, b) := by
  unfold eatDigits1
  have htw := takeWhile_append_stop isDig (natDigits n) b (natDigits_all_dig n) hb
  rw [htw, if_neg (by simp [natDigits_ne_nil n]), natDigits_parse, List.drop_left]

theorem tagVariantMatchAt_renderTag (idv : Nat) (v : VarT) (code desc post : List Char)
    (hcode : codeOk code = true) (hdesc : ']' ∉ desc) :
    tagVariantMatchAt (renderTag idv v code desc ++ post) =
      some (idv, v, renderTag idv v code desc, post) := by
  have hdig : eatDigits1 (natDigits idv ++ ("|var=".data ++ (renderVar v ++
      ("):".data ++ ((' ' :: code) ++ (',' :: ((' ' :: desc) ++ (']' :: post)))))))) =
      some (idv, "|var=".data ++ (renderVar v ++
        ("):".data ++ ((' ' :: code) ++ (',' :: ((' ' :: desc) ++ (']' :: post))))))) := by
    refine eatDigits1_stop idv _ ?_
    intro c r h
    have h2 : '|' :: ("var=".data ++ (renderVar v ++
        ("):".data ++ ((' ' :: code) ++ (',' :: ((' ' :: desc) ++ (']' :: post))))))) =
        c :: r := h
    injection h2 with h2a h2b
    rw [← h2a]
    decide
  have hvar : parseVar (renderVar v ++ ("):".data ++ ((' ' :: code) ++
      (',' :: ((' ' :: desc) ++ (']' :: post)))))) =
      some (v, "):".data ++ ((' ' :: code) ++
        (',' :: ((' ' :: desc) ++ (']' :: post))))) := by
    cases v with
    | c => rfl
    | a k =>
      have hY : ∀ c2 r2, ("):".data ++ ((' ' :: code) ++
          (',' :: ((' ' :: desc) ++ (']' :: post)))) = c2 :: r2) → isDig c2 = false := by
        intro c2 r2 h2
        have h3 : ')' :: (":".data ++ ((' ' :: code) ++
            (',' :: ((' ' :: desc) ++ (']' :: post))))) = c2 :: r2 := h2
        injection h3 with h3a h3b
        rw [← h3a]
        decide
      show ((eatDigits1 (natDigits k ++ ("):".data ++ ((' ' :: code) ++
          (',' :: ((' ' :: desc) ++ (']' :: post))))))).bind fun kr =>
            some (VarT.a kr.1, kr.2)) = _
      rw [eatDigits1_stop k _ hY, Option.some_bind]
  have hcomma : scanToChar ',' ((' ' :: code) ++
      (',' :: ((' ' :: desc) ++ (']' :: post)))) =
      some (' ' :: code, (' ' :: desc) ++ (']' :: post)) := by
    refine scanToChar_exact ',' _ _ ?_ (by simp)
    intro x hx
    rcases List.mem_cons.mp hx with rfl | hx2
    · decide
    · exact (codeOk_mem_ne code hcode x hx2).1
  have hrb : scanToChar ']' ((' ' :: desc) ++ (']' :: post)) =
      some (' ' :: desc, post) := by
    refine scanToChar_exact ']' _ _ ?_ (by simp)
    intro x hx
    rcases List.mem_cons.mp hx with rfl | hx2
    · decide
    · intro hbad
      rw [hbad] at hx2
      exact hdesc hx2
  have htake : (renderTag idv v code desc ++ post).take
      ((renderTag idv v code desc ++ post).length - post.length) =
      renderTag idv v code desc := by
    rw [List.length_append, Nat.add_sub_cancel, List.take_left]
  rw [renderTag_assoc] at htake ⊢
  unfold tagVariantMatchAt
  rw [eatLit_append, Option.some_bind, hdig, Option.some_bind]
  rw [show ("|var=".data ++ (renderVar v ++ ("):".data ++ ((' ' :: code) ++
      (',' :: ((' ' :: desc) ++ (']' :: post))))))) =
      "|var=".data ++ (renderVar v ++ ("):".data ++ ((' ' :: code) ++
      (',' :: ((' ' :: desc) ++ (']' :: post)))))) from rfl]
  rw [eatLit_append, Option.some_bind, hvar, Option.some_bind]
  rw [eatLit_append, Option.some_bind, hcomma, Option.some_bind]
  rw [hrb, Option.some_bind]
  rw [htake]

theorem unredactGo_eq_of_match (inv : Inventory) (cs : List Char) (idv : Nat)
    (v : VarT) (matched rest : List Char)
    (hm : tagVariantMatchAt cs = some (idv, v, matched, rest)) :
    unredactGo inv cs = replFor inv idv v matched ++ unredactGo inv rest := by
  cases cs with
  | nil =>
    have hnone : tagVariantMatchAt ([] : List Char) = none := rfl
    rw [hnone] at hm
    cases hm
  | cons c cs' => exact unredactGo_cons_some inv c cs' idv v matched rest hm

/-- The inventory of the unredaction scenario: one item with id 10 and
one alias with id 1. -/
def invUser : Inventory :=
  ⟨[⟨10, "(1)(A)(c)".data, "email address".data, "user@example.com".data,
    [⟨1, "user_alt@example.com".data⟩], "global".data⟩]⟩

/-- A complete section 6 tag naming item 10 with the canonical variant. -/
def innerTag10 : List Char :=
  "[REDACTED(#10|var=c): (1)(A)(c), email address]".data

/-- A document consisting of a tag lookalike prefix with unknown item id 9
whose description part swallows a genuine tag for item 10. -/
def tC8 : List Char :=
  "[REDACTED(#9|var=c): x, [REDACTED(#10|var=c): (1)(A)(c), email address]".data

/-- C8 counterexample: the document tC8 contains the section 6 tag
innerTag10 as a substring, item 10 exists in the inventory and the
variant is c, so the claim demands that this tag be replaced by the
canonical surface; the code instead returns the whole document verbatim,
because one regex match starting at the unknown-id lookalike prefix
swallows the genuine tag. -/
theorem C8_counterexample_swallowed_tag :
    unredact_text tC8 invUser = tC8 ∧ isTag6 innerTag10 = true ∧
      containsSub innerTag10 tC8 = true ∧ (invUser.find 10).isSome = true ∧
      unredact_text tC8 invUser ≠
        "[REDACTED(#9|var=c): x, ".data ++ "user@example.com".data := by
  decide

/-- C8 amended: the graceful degradation contract of unredact_text holds
for every tag the left-to-right scan reaches, here every tag grammar
instance whose preceding text contains no occurrence of the REDACTED
marker: an unknown item id leaves the tag verbatim, variant c restores
the canonical surface, variant a with an absent alias id falls back to
the canonical surface (and to the alias surface when present), and the
text before and after the tag is processed unchanged. -/
theorem C8_amended_unredact_graceful (inv : Inventory) (pre post code desc : List Char)
    (idv : Nat) (v : VarT)
    (hpre : containsSub ("[REDACTED".data) pre = false)
    (hcode : codeOk code = true)
    (hdesc : ']' ∉ desc) :
    unredact_text (pre ++ renderTag idv v code desc ++ post) inv =
      pre ++
        (match inv.find (Int.ofNat idv) with
         | none => renderTag idv v code desc
         | some it =>
           match v with
           | VarT.c => it.surface
           | VarT.a k =>
             match inv.get_alias_surface (Int.ofNat idv) (Int.ofNat k) with
             | none => it.surface
             | some als => als) ++
        unredact_text post inv := by
  rw [unredact_eq_unredactGo, unredact_eq_unredactGo]
  rw [List.append_assoc]
  rw [unredactGo_append_clean inv pre (renderTag idv v code desc ++ post) rfl hpre]
  rw [unredactGo_eq_of_match inv _ idv v _ post
    (tagVariantMatchAt_renderTag idv v code desc post hcode hdesc)]
  rw [← List.append_assoc]
  rfl

/-- C8 witness: a concrete instance of every branch of the amended
contract on the inventory invUser: an unknown id keeps the tag, variant c
restores the canonical surface, a known alias id restores the alias
surface, and an absent alias id falls back to the canonical surface. -/
theorem C8_witness :
    containsSub ("[REDACTED".data) ("Dear team, ".data) = false ∧
      codeOk ("(1)(A)(c)".data) = true ∧ ']' ∉ ("email address".data) ∧
      unredact_text ("Dear team, ".data ++
          renderTag 10 VarT.c ("(1)(A)(c)".data) ("email address".data) ++
          " bye".data) invUser =
        "Dear team, ".data ++
          (match invUser.find (Int.ofNat 10) with
           | none => renderTag 10 VarT.c ("(1)(A)(c)".data) ("email address".data)
           | some it =>
             match VarT.c with
             | VarT.c => it.surface
             | VarT.a k =>
               match invUser.get_alias_surface (Int.ofNat 10) (Int.ofNat k) with
               | none => it.surface
               | some als => als) ++
          unredact_text (" bye".data) invUser :=
  ⟨by decide, by decide, by decide,
    C8_amended_unredact_graceful invUser ("Dear team, ".data) (" bye".data)
      ("(1)(A)(c)".data) ("email address".data) 10 VarT.c (by decide) (by decide)
      (by decide)⟩

/-- C9 counterexample: the empty document contains no fenced code block
(the fence matcher finds nothing), yet segment returns the empty segment
list rather than exactly one segment equal to the whole input, because
the trailing-text branch of the loop only fires when the remaining text
is nonempty. -/
theorem C9_counterexample_empty_doc :
    segmentL [] = [] ∧ findFenceFrom [] 1 0 = none := by
  decide

/-- C9 amended: for every nonempty document in which the fence pattern
has no match, segment returns exactly one segment, the whole input marked
redactable. -/
theorem C9_amended_segment_no_fence (cs : List Char) (hne : cs ≠ [])
    (hnf : findFenceFrom cs (cs.length + 1) 0 = none) :
    segmentL cs = [(cs, true)] := by
  have hpos : 0 < cs.length := List.length_pos.mpr hne
  simp only [segmentL, segmentGo]
  rw [hnf]
  simp [hpos]

/-- C9 witness: a concrete fence-free document. -/
theorem C9_witness :
    "hello".data ≠ [] ∧ findFenceFrom "hello".data ("hello".data.length + 1) 0 = none ∧
      segmentL "hello".data = [("hello".data, true)] :=
  ⟨by decide, by decide, C9_amended_segment_no_fence _ (by decide) (by decide)⟩

end Silencio
